import Mathlib

/-!
Verification of the badger-board rendering and transport core.

The development shallowly embeds the two Python sources:
- badge_co2.py: threshold evaluator (get_warning_level), value formatter
  (format_value), cell geometry of draw_cell, bitmap packer
  (image_to_badge_bytes) and frame transmitter (send_image_to_badge);
- badge_main.py: the receiver paint routine (display_image), its refresh
  counter, and the line dispatch of the read loop.

Python floats parsed from sensor strings are modelled as rationals; a sensor
value is carried together with its optional parse result.  Machine bytes are
Nat with explicit bit operations.  The external base64 codec
(base64.b64encode / binascii.a2b_base64) is modelled from its documented
RFC 4648 semantics, since it is library code outside the repository.
-/

/-- Display width in pixels, DISPLAY_CONFIG.width and WIDTH in badge_main. -/
def WIDTH : Nat := 296

/-- Display height in pixels, DISPLAY_CONFIG.height and HEIGHT in badge_main. -/
def HEIGHT : Nat := 128

/-- Number of grid columns, DISPLAY_CONFIG.cols. -/
def COLS : Nat := 2

/-- Number of grid rows, DISPLAY_CONFIG.rows. -/
def ROWS : Nat := 4

/-- Receiver constant FULL_REFRESH_INTERVAL in badge_main.py. -/
def FULL_REFRESH_INTERVAL : Nat := 60

/-- A sensor value as the Python code sees it: the raw string together with
the result of float(value), which is none when parsing raises. -/
structure SensorValue where
  raw : String
  parsed : Option ℚ

/-- Embedding of get_warning_level (badge_co2.py lines 177-189).  Thresholds
are an optional ordered pair (warning, danger); a falsy thresholds value or a
parse failure yields 0.  Returns 0 = none, 1 = warning, 2 = danger. -/
def get_warning_level (value : SensorValue) (thresholds : Option (ℚ × ℚ)) : Nat :=
  match thresholds with
  | none => 0
  | some t =>
    match value.parsed with
    | none => 0
    | some val =>
      if t.2 ≤ val then 2
      else if t.1 ≤ val then 1
      else 0

/-- The format kinds of the CellSpec data model: raw, int, fixed-0-decimal
(the string "0f" in the source) and fixed-1-decimal ("1f"). -/
inductive Fmt
  | raw
  | int
  | f0
  | f1

/-- Truncation toward zero, the semantics of Python int(val) on a float. -/
def truncToward0 (q : ℚ) : Int :=
  if q < 0 then ⌈q⌉ else ⌊q⌋

/-- Round to nearest with ties to even, the rounding used by Python float
formatting with a fixed number of decimals. -/
def roundHalfEven (q : ℚ) : Int :=
  if q - ⌊q⌋ < 1 / 2 then ⌊q⌋
  else if 1 / 2 < q - ⌊q⌋ then ⌊q⌋ + 1
  else if ⌊q⌋ % 2 = 0 then ⌊q⌋ else ⌊q⌋ + 1

/-- Rendering of the int format kind. -/
def intFormat (q : ℚ) : String :=
  toString (truncToward0 q)

/-- Rendering of the fixed-0-decimal format kind. -/
def format0f (q : ℚ) : String :=
  toString (roundHalfEven q)

/-- Rendering of the fixed-1-decimal format kind: the value rounded to one
decimal digit, printed as integer part, a dot inbetween, and one digit. -/
def format1f (q : ℚ) : String :=
  let n := roundHalfEven (q * 10)
  (if n < 0 then "-" else "") ++ toString (n.natAbs / 10) ++ "." ++ toString (n.natAbs % 10)

/-- Embedding of format_value (badge_co2.py lines 192-207).  The raw kind
never parses; the numeric kinds parse and fall back to the raw string when
parsing raised.  The function is total: no exception reaches the caller. -/
def format_value (value : SensorValue) (fmt : Fmt) (suffix : String) : String :=
  match fmt with
  | .raw => value.raw ++ suffix
  | _ =>
    match value.parsed with
    | none => value.raw ++ suffix
    | some val =>
      match fmt with
      | .int => intFormat val ++ suffix
      | .f0 => format0f val ++ suffix
      | .f1 => format1f val ++ suffix
      | .raw => value.raw ++ suffix

/-- C4: with ordered thresholds (w, d), the evaluator returns danger exactly
on parsed values at or above d, warning exactly on parsed values in [w, d),
and none exactly below w, on a parse failure, or on absent thresholds; being
a total function, no exception escapes it. -/
theorem c4_threshold_tiers (r : String) (q w d : ℚ) (v : SensorValue) (h : w ≤ d) :
    (get_warning_level ⟨r, some q⟩ (some (w, d)) = 2 ↔ d ≤ q) ∧
    (get_warning_level ⟨r, some q⟩ (some (w, d)) = 1 ↔ w ≤ q ∧ q < d) ∧
    (get_warning_level ⟨r, some q⟩ (some (w, d)) = 0 ↔ q < w) ∧
    get_warning_level ⟨r, none⟩ (some (w, d)) = 0 ∧
    get_warning_level v none = 0 := by
  refine ⟨?_, ?_, ?_, rfl, rfl⟩
  · simp only [get_warning_level]
    split_ifs with h1 h2
    · exact ⟨fun _ => h1, fun _ => rfl⟩
    · exact ⟨fun hx => absurd hx (by decide), fun hx => absurd hx h1⟩
    · exact ⟨fun hx => absurd hx (by decide), fun hx => absurd hx h1⟩
  · simp only [get_warning_level]
    split_ifs with h1 h2
    · exact ⟨fun hx => absurd hx (by decide), fun hx => absurd h1 (not_le.mpr hx.2)⟩
    · exact ⟨fun _ => ⟨h2, not_le.mp h1⟩, fun _ => rfl⟩
    · exact ⟨fun hx => absurd hx (by decide), fun hx => absurd hx.1 h2⟩
  · simp only [get_warning_level]
    split_ifs with h1 h2
    · exact ⟨fun hx => absurd hx (by decide), fun hx => absurd h1 (not_le.mpr (lt_of_lt_of_le hx h))⟩
    · exact ⟨fun hx => absurd hx (by decide), fun hx => absurd h2 (not_le.mpr hx)⟩
    · exact ⟨fun _ => not_le.mp h2, fun _ => rfl⟩

/-- Witness instantiating c4_threshold_tiers at value 5 and thresholds
(3, 4). -/
theorem c4_threshold_tiers_witness :
    (3 : ℚ) ≤ 4 ∧
    ((get_warning_level ⟨"5", some 5⟩ (some ((3 : ℚ), (4 : ℚ))) = 2 ↔ (4 : ℚ) ≤ 5) ∧
    (get_warning_level ⟨"5", some 5⟩ (some ((3 : ℚ), (4 : ℚ))) = 1 ↔ (3 : ℚ) ≤ 5 ∧ (5 : ℚ) < 4) ∧
    (get_warning_level ⟨"5", some 5⟩ (some ((3 : ℚ), (4 : ℚ))) = 0 ↔ (5 : ℚ) < 3) ∧
    get_warning_level ⟨"5", none⟩ (some ((3 : ℚ), (4 : ℚ))) = 0 ∧
    get_warning_level ⟨"ERR", none⟩ none = 0) :=
  ⟨by norm_num, c4_threshold_tiers "5" 5 3 4 ⟨"ERR", none⟩ (by norm_num)⟩

/-- C5: the raw kind concatenates unparsed; each numeric kind formats the
parsed rational and appends the suffix, and falls back to raw concatenation
when the parse failed, in particular for the sentinel "ERR"; format_value is
total, so it never raises to the caller. -/
theorem c5_format_fallback (r suffix : String) (q : ℚ) :
    format_value ⟨r, some q⟩ .raw suffix = r ++ suffix ∧
    format_value ⟨r, none⟩ .raw suffix = r ++ suffix ∧
    format_value ⟨r, none⟩ .int suffix = r ++ suffix ∧
    format_value ⟨r, none⟩ .f0 suffix = r ++ suffix ∧
    format_value ⟨r, none⟩ .f1 suffix = r ++ suffix ∧
    format_value ⟨r, some q⟩ .int suffix = intFormat q ++ suffix ∧
    format_value ⟨r, some q⟩ .f0 suffix = format0f q ++ suffix ∧
    format_value ⟨r, some q⟩ .f1 suffix = format1f q ++ suffix ∧
    format_value ⟨"ERR", none⟩ .int suffix = "ERR" ++ suffix ∧
    format_value ⟨"ERR", none⟩ .f0 suffix = "ERR" ++ suffix ∧
    format_value ⟨"ERR", none⟩ .f1 suffix = "ERR" ++ suffix :=
  ⟨rfl, rfl, rfl, rfl, rfl, rfl, rfl, rfl, rfl, rfl, rfl⟩

/-- C10: on any parsed value the int kind prints an integer within distance
one of the value and no larger in magnitude (truncation toward zero), while
the fixed-0 kind prints an integer within half of the value (rounding to
nearest); on the input 2.9 the two kinds print 2 and 3 respectively, and
55.7 prints as 55 and 56. -/
theorem c10_int_truncates_f0_rounds (r suffix : String) (q : ℚ) :
    (∃ n : ℤ, format_value ⟨r, some q⟩ .int suffix = toString n ++ suffix ∧
      |q - (n : ℚ)| < 1 ∧ |(n : ℚ)| ≤ |q|) ∧
    (∃ m : ℤ, format_value ⟨r, some q⟩ .f0 suffix = toString m ++ suffix ∧
      |q - (m : ℚ)| ≤ 1 / 2) ∧
    format_value ⟨"2.9", some (29 / 10)⟩ .int "" = "2" ∧
    format_value ⟨"2.9", some (29 / 10)⟩ .f0 "" = "3" ∧
    format_value ⟨"55.7", some (557 / 10)⟩ .int "" = "55" ∧
    format_value ⟨"55.7", some (557 / 10)⟩ .f0 "" = "56" := by
  refine ⟨⟨truncToward0 q, rfl, ?_, ?_⟩, ⟨roundHalfEven q, rfl, ?_⟩, ?_, ?_, ?_, ?_⟩
  · unfold truncToward0
    split_ifs with hq
    · rw [abs_of_nonpos (by linarith [Int.le_ceil q])]
      linarith [Int.ceil_lt_add_one q]
    · rw [abs_of_nonneg (by linarith [Int.floor_le q])]
      linarith [Int.lt_floor_add_one q]
  · unfold truncToward0
    split_ifs with hq
    · have hc : ⌈q⌉ ≤ 0 := Int.ceil_le.mpr (by exact_mod_cast le_of_lt hq)
      rw [abs_of_nonpos (by exact_mod_cast hc), abs_of_nonpos (le_of_lt hq)]
      have := Int.le_ceil q
      linarith
    · rw [abs_of_nonneg (by exact_mod_cast Int.floor_nonneg.mpr (not_lt.mp hq)),
        abs_of_nonneg (not_lt.mp hq)]
      exact Int.floor_le q
  · unfold roundHalfEven
    rw [abs_le]
    split_ifs with h1 h2 h3 <;> push_cast <;>
      constructor <;> linarith [Int.floor_le q, Int.lt_floor_add_one q]
  · have hfl : ⌊(29 / 10 : ℚ)⌋ = 2 := by
      rw [Int.floor_eq_iff]
      norm_num
    have ht : truncToward0 (29 / 10 : ℚ) = 2 := by
      unfold truncToward0
      rw [if_neg (by norm_num), hfl]
    show intFormat (29 / 10) ++ "" = "2"
    unfold intFormat
    rw [ht]
    rfl
  · have hfl : ⌊(29 / 10 : ℚ)⌋ = 2 := by
      rw [Int.floor_eq_iff]
      norm_num
    have ht : roundHalfEven (29 / 10 : ℚ) = 3 := by
      unfold roundHalfEven
      rw [hfl, if_neg (by norm_num), if_pos (by norm_num)]
      decide
    show format0f (29 / 10) ++ "" = "3"
    unfold format0f
    rw [ht]
    rfl
  · have hfl : ⌊(557 / 10 : ℚ)⌋ = 55 := by
      rw [Int.floor_eq_iff]
      norm_num
    have ht : truncToward0 (557 / 10 : ℚ) = 55 := by
      unfold truncToward0
      rw [if_neg (by norm_num), hfl]
    show intFormat (557 / 10) ++ "" = "55"
    unfold intFormat
    rw [ht]
    rfl
  · have hfl : ⌊(557 / 10 : ℚ)⌋ = 55 := by
      rw [Int.floor_eq_iff]
      norm_num
    have ht : roundHalfEven (557 / 10 : ℚ) = 56 := by
      unfold roundHalfEven
      rw [hfl, if_neg (by norm_num), if_pos (by norm_num)]
      decide
    show format0f (557 / 10) ++ "" = "56"
    unfold format0f
    rw [ht]
    rfl

/-- Cell width in pixels, width // cols in generate_display_image. -/
def cell_width : Nat := WIDTH / COLS

/-- Cell height in pixels, height // rows in generate_display_image. -/
def cell_height : Nat := HEIGHT / ROWS

/-- Membership in the half-open rectangle that the grid assigns to the cell
at position (row, col). -/
def inCell (row col px py : Nat) : Prop :=
  col * cell_width ≤ px ∧ px < (col + 1) * cell_width ∧
  row * cell_height ≤ py ∧ py < (row + 1) * cell_height

/-- The canvas pixels painted black by the DANGER fill of draw_cell
(badge_co2.py line 240): draw.rectangle with corners [x, y, x + w, y + h]
and fill.  A PIL rectangle includes both corner points and is clipped to the
canvas bounds. -/
def danger_fill_pixels (row col px py : Nat) : Prop :=
  col * cell_width ≤ px ∧ px ≤ col * cell_width + cell_width ∧
  row * cell_height ≤ py ∧ py ≤ row * cell_height + cell_height ∧
  px < WIDTH ∧ py < HEIGHT

/-- The canvas pixels painted black by the WARNING border of draw_cell
(badge_co2.py line 246): draw.rectangle with corners [x, y, x + w - 1,
y + h - 1], outline and width 2.  A width-2 PIL outline covers the two
outermost pixel rings of the closed rectangle, clipped to the canvas. -/
def warning_border_pixels (row col px py : Nat) : Prop :=
  (col * cell_width ≤ px ∧ px ≤ col * cell_width + cell_width - 1 ∧
   row * cell_height ≤ py ∧ py ≤ row * cell_height + cell_height - 1) ∧
  (px < col * cell_width + 2 ∨ col * cell_width + cell_width - 2 ≤ px ∨
   py < row * cell_height + 2 ∨ row * cell_height + cell_height - 2 ≤ py) ∧
  px < WIDTH ∧ py < HEIGHT

/-- C8 counterexample: in the DANGER state, the fill of cell (0, 0) paints
the canvas pixel (148, 0), which lies outside that cell and inside the
rectangle of the neighbouring cell (0, 1). -/
theorem c8_fill_escapes_cell : danger_fill_pixels 0 0 148 0 ∧ ¬ inCell 0 0 148 0 ∧ inCell 0 1 148 0 := by
  unfold danger_fill_pixels inCell cell_width cell_height WIDTH HEIGHT COLS ROWS
  omega

/-- C8 amended: for every grid position, the WARNING border stays inside the
rectangle of its cell, while the DANGER fill covers exactly the rectangle of
the cell together with the adjacent pixel column and pixel row at its right
and bottom edges, clipped to the canvas. -/
theorem c8_cell_regions (row col px py : Nat) (hr : row < ROWS) (hc : col < COLS) :
    (warning_border_pixels row col px py → inCell row col px py) ∧
    (danger_fill_pixels row col px py ↔
      (inCell row col px py ∨
        (col * cell_width ≤ px ∧ px ≤ (col + 1) * cell_width ∧
         row * cell_height ≤ py ∧ py ≤ (row + 1) * cell_height ∧
         px < WIDTH ∧ py < HEIGHT ∧
         (px = (col + 1) * cell_width ∨ py = (row + 1) * cell_height)))) := by
  unfold warning_border_pixels inCell danger_fill_pixels cell_width cell_height WIDTH HEIGHT COLS ROWS at *
  omega

/-- Witness instantiating c8_cell_regions at cell (0, 0) and pixel
(148, 0). -/
theorem c8_cell_regions_witness :
    0 < ROWS ∧ 0 < COLS ∧
    ((warning_border_pixels 0 0 148 0 → inCell 0 0 148 0) ∧
    (danger_fill_pixels 0 0 148 0 ↔
      (inCell 0 0 148 0 ∨
        (0 * cell_width ≤ 148 ∧ 148 ≤ (0 + 1) * cell_width ∧
         0 * cell_height ≤ 0 ∧ 0 ≤ (0 + 1) * cell_height ∧
         148 < WIDTH ∧ 0 < HEIGHT ∧
         (148 = (0 + 1) * cell_width ∨ 0 = (0 + 1) * cell_height))))) :=
  ⟨by decide, by decide, c8_cell_regions 0 0 148 0 (by decide) (by decide)⟩

/-- Packed bytes per canvas row: the length of range(0, w, 8). -/
def bytes_per_row (w : Nat) : Nat := (w + 7) / 8

/-- The values taken by x in the loop range(0, w, 8), shared by the packer
and by the receiver paint routine. -/
def range8 (w : Nat) : List Nat := (List.range (bytes_per_row w)).map (fun g => 8 * g)

/-- One packed byte of image_to_badge_bytes (badge_co2.py lines 314-319):
starting from 0, bit (7 - bit) is ORed in when column x + bit lies inside
the canvas and the pixel there is nonzero. -/
def packByte (pixels : Nat → Bool) (w y x : Nat) : Nat :=
  (List.range 8).foldl
    (fun byte bit =>
      if x + bit < w ∧ pixels (y * w + (x + bit)) then byte ||| (1 <<< (7 - bit)) else byte) 0

/-- Embedding of image_to_badge_bytes (badge_co2.py lines 304-322): one byte
per group of 8 columns, rows concatenated in order. -/
def image_to_badge_bytes (pixels : Nat → Bool) (w h : Nat) : List Nat :=
  ((List.range h).map (fun y => (range8 w).map (fun x => packByte pixels w y x))).flatten

/-- Bits of the packer byte loop: folding over any list of bit positions
ORs in exactly the selected powers of two. -/
theorem packByte_aux (pixels : Nat → Bool) (w y x : Nat) (l : List Nat) (acc k : Nat) :
    Nat.testBit
      (l.foldl (fun byte bit =>
        if x + bit < w ∧ pixels (y * w + (x + bit)) then byte ||| (1 <<< (7 - bit)) else byte) acc) k
    = (Nat.testBit acc k ||
        l.any (fun bit => decide (x + bit < w) && pixels (y * w + (x + bit)) && decide (7 - bit = k))) := by
  induction l generalizing acc with
  | nil => simp
  | cons b t ih =>
    rw [List.foldl_cons, ih, List.any_cons]
    by_cases hcond : x + b < w ∧ pixels (y * w + (x + b))
    · rw [if_pos hcond, Nat.testBit_or, Nat.one_shiftLeft, Nat.testBit_two_pow]
      simp [hcond.1, hcond.2, Bool.or_assoc]
    · rw [if_neg hcond]
      rcases not_and_or.mp hcond with hcase | hcase
      · simp [hcase]
      · have hfalse : pixels (y * w + (x + b)) = false := by
          simpa using hcase
        simp [hfalse]

/-- Bit (7 - j) of a packed byte is exactly the pixel of column x + j when
that column is inside the canvas, and 0 otherwise. -/
theorem testBit_packByte (pixels : Nat → Bool) (w y x j : Nat) (hj : j < 8) :
    Nat.testBit (packByte pixels w y x) (7 - j)
      = (decide (x + j < w) && pixels (y * w + (x + j))) := by
  unfold packByte
  rw [packByte_aux, Nat.zero_testBit, Bool.false_or]
  have hrange : List.range 8 = [0, 1, 2, 3, 4, 5, 6, 7] := rfl
  rw [hrange]
  interval_cases j <;> simp

/-- The packer emits h * ceil(w / 8) bytes. -/
theorem length_image_to_badge_bytes (pixels : Nat → Bool) (w h : Nat) :
    (image_to_badge_bytes pixels w h).length = h * bytes_per_row w := by
  induction h with
  | zero => simp [image_to_badge_bytes]
  | succ h ih =>
    unfold image_to_badge_bytes at *
    rw [List.range_succ, List.map_append, List.flatten_append, List.length_append, ih]
    simp [range8, Nat.succ_mul]

/-- The byte at row-major index y * bytes_per_row w + g is the packed byte
of row y, group g. -/
theorem getElem?_image_to_badge_bytes (pixels : Nat → Bool) (w h y g : Nat)
    (hy : y < h) (hg : g < bytes_per_row w) :
    (image_to_badge_bytes pixels w h)[y * bytes_per_row w + g]?
      = some (packByte pixels w y (8 * g)) := by
  induction h with
  | zero => omega
  | succ h ih =>
    unfold image_to_badge_bytes
    rw [List.range_succ, List.map_append, List.flatten_append]
    have hlen : (((List.range h).map fun y => (range8 w).map fun x => packByte pixels w y x).flatten).length
        = h * bytes_per_row w := length_image_to_badge_bytes pixels w h
    rcases Nat.lt_or_ge y h with hy2 | hy2
    · rw [List.getElem?_append_left]
      · exact ih hy2
      · rw [hlen]
        have h1 : y * bytes_per_row w + g < (y + 1) * bytes_per_row w := by
          rw [Nat.succ_mul]
          exact Nat.add_lt_add_left hg _
        exact lt_of_lt_of_le h1 (Nat.mul_le_mul_right _ hy2)
    · have hy3 : y = h := by omega
      subst hy3
      rw [List.getElem?_append_right]
      · rw [hlen, Nat.add_sub_cancel_left, List.map_cons, List.map_nil, List.flatten_cons,
          List.flatten_nil, List.append_nil, range8, List.map_map, List.getElem?_map,
          List.getElem?_range hg]
        rfl
      · rw [hlen]
        exact Nat.le_add_right _ _

/-- State of the display_image paint loop on the receiver: the set of pixels
set black so far, and the running byte index. -/
structure PaintState where
  painted : Nat → Nat → Bool
  byte_idx : Nat

/-- The inner bit loop of display_image (badge_main.py lines 47-53): a pixel
is set black when its column is on the panel and the corresponding bit of
the byte is clear. -/
def paintBits (byte y x : Nat) (p : Nat → Nat → Bool) : Nat → Nat → Bool :=
  (List.range 8).foldl
    (fun q bit =>
      if x + bit < WIDTH ∧ byte &&& (1 <<< (7 - bit)) = 0 then
        fun px py => (px == x + bit && py == y) || q px py
      else q) p

/-- One iteration of the x loop of display_image (badge_main.py lines
44-54): while bytes remain, paint from the current byte and advance the
byte index; once the bytes are exhausted nothing further happens. -/
def paintGroup (img : List Nat) (y : Nat) (st : PaintState) (x : Nat) : PaintState :=
  if st.byte_idx < img.length then
    { painted := paintBits (img.getD st.byte_idx 0) y x st.painted,
      byte_idx := st.byte_idx + 1 }
  else st

/-- One row of the y loop of display_image. -/
def paintRow (img : List Nat) (st : PaintState) (y : Nat) : PaintState :=
  (range8 WIDTH).foldl (paintGroup img y) st

/-- The paint phase of display_image (badge_main.py lines 38-54), starting
from a cleared panel and byte index 0. -/
def display_paint (img : List Nat) : PaintState :=
  (List.range HEIGHT).foldl (paintRow img) ⟨fun _ _ => false, 0⟩

/-- Unfolding of the bit loop of display_image over an arbitrary list of bit
positions. -/
theorem paintBits_aux (byte y x : Nat) (l : List Nat) (p : Nat → Nat → Bool) (px py : Nat) :
    (l.foldl (fun q bit =>
      if x + bit < WIDTH ∧ byte &&& (1 <<< (7 - bit)) = 0 then
        fun px py => (px == x + bit && py == y) || q px py
      else q) p) px py
    = (p px py || l.any (fun bit =>
        decide (x + bit < WIDTH) && decide (byte &&& (1 <<< (7 - bit)) = 0) &&
        (px == x + bit) && (py == y))) := by
  induction l generalizing p with
  | nil => simp
  | cons b t ih =>
    rw [List.foldl_cons, ih, List.any_cons]
    by_cases hcond : x + b < WIDTH ∧ byte &&& (1 <<< (7 - b)) = 0
    · rw [if_pos hcond]
      simp [hcond.1, hcond.2, Bool.or_assoc, Bool.or_comm, Bool.or_left_comm]
    · rw [if_neg hcond]
      rcases not_and_or.mp hcond with hcase | hcase
      · simp [hcase]
      · simp [hcase]

/-- The bit loop paints exactly the pixels of row y in the 8-column group at
x whose bit in the byte is clear. -/
theorem paintBits_iff (byte y x : Nat) (p : Nat → Nat → Bool) (px py : Nat) :
    paintBits byte y x p px py = true ↔
      (p px py = true ∨
        (x ≤ px ∧ px < x + 8 ∧ px < WIDTH ∧ py = y ∧
         byte &&& (1 <<< (7 - (px - x))) = 0)) := by
  unfold paintBits
  rw [paintBits_aux]
  simp only [Bool.or_eq_true, List.any_eq_true, List.mem_range, Bool.and_eq_true,
    decide_eq_true_eq, beq_iff_eq]
  constructor
  · rintro (hp | ⟨bit, hbit, ⟨⟨⟨hw, hb⟩, hpx⟩, hpy⟩⟩)
    · exact Or.inl hp
    · subst hpx
      subst hpy
      right
      refine ⟨by omega, by omega, hw, rfl, ?_⟩
      rw [show x + bit - x = bit from by omega]
      exact hb
  · rintro (hp | ⟨hle, hlt, hw, hpy, hb⟩)
    · exact Or.inl hp
    · right
      refine ⟨px - x, by omega, ⟨⟨⟨?_, hb⟩, by omega⟩, hpy.symm ▸ rfl⟩⟩
      rw [show x + (px - x) = px from by omega]
      exact hw

/-- The byte index after one group step. -/
theorem paintGroup_byte_idx (img : List Nat) (y : Nat) (st : PaintState) (x : Nat) :
    (paintGroup img y st x).byte_idx
      = if st.byte_idx < img.length then st.byte_idx + 1 else st.byte_idx := by
  unfold paintGroup
  split_ifs <;> rfl

/-- The byte index consumed by the first n groups of a row. -/
theorem rowFold_byte_idx (img : List Nat) (y n : Nat) (st : PaintState)
    (h : st.byte_idx ≤ img.length) :
    (((List.range n).map (fun g => 8 * g)).foldl (paintGroup img y) st).byte_idx
      = min (st.byte_idx + n) img.length := by
  induction n with
  | zero => simpa using by omega
  | succ n ih =>
    rw [List.range_succ, List.map_append, List.foldl_append]
    simp only [List.map_cons, List.map_nil, List.foldl_cons, List.foldl_nil]
    rw [paintGroup_byte_idx, ih]
    split_ifs <;> omega

/-- Painted pixels after one group step while bytes remain. -/
theorem paintGroup_painted_pos (img : List Nat) (y : Nat) (st : PaintState) (x : Nat)
    (h : st.byte_idx < img.length) :
    (paintGroup img y st x).painted = paintBits (img.getD st.byte_idx 0) y x st.painted := by
  unfold paintGroup
  rw [if_pos h]

/-- Painted pixels after one group step once the bytes are exhausted. -/
theorem paintGroup_painted_neg (img : List Nat) (y : Nat) (st : PaintState) (x : Nat)
    (h : ¬ st.byte_idx < img.length) :
    (paintGroup img y st x).painted = st.painted := by
  unfold paintGroup
  rw [if_neg h]

/-- Pixels painted by the first n groups of row y: exactly those already
painted, together with the pixels of row y in the processed columns whose
byte (at offset byte index plus column group) exists and has a clear bit. -/
theorem rowFold_painted (img : List Nat) (y n : Nat) (st : PaintState) (px py : Nat)
    (h : st.byte_idx ≤ img.length) :
    (((List.range n).map (fun g => 8 * g)).foldl (paintGroup img y) st).painted px py = true ↔
      (st.painted px py = true ∨
        (py = y ∧ px < 8 * n ∧ px < WIDTH ∧ st.byte_idx + px / 8 < img.length ∧
         img.getD (st.byte_idx + px / 8) 0 &&& (1 <<< (7 - px % 8)) = 0)) := by
  induction n with
  | zero =>
    simp only [List.range_zero, List.map_nil, List.foldl_nil]
    constructor
    · exact Or.inl
    · rintro (hp | ⟨_, hlt, _⟩)
      · exact hp
      · omega
  | succ n ih =>
    rw [List.range_succ, List.map_append, List.foldl_append]
    simp only [List.map_cons, List.map_nil, List.foldl_cons, List.foldl_nil]
    have hidx := rowFold_byte_idx img y n st h
    by_cases hrem :
        (((List.range n).map (fun g => 8 * g)).foldl (paintGroup img y) st).byte_idx
          < img.length
    · rw [paintGroup_painted_pos _ _ _ _ hrem]
      have hk :
          (((List.range n).map (fun g => 8 * g)).foldl (paintGroup img y) st).byte_idx
            = st.byte_idx + n := by omega
      rw [paintBits_iff, ih, hk]
      constructor
      · rintro ((hp | ⟨hpy, hlt, hw, hi, hb⟩) | ⟨hge, hlt8, hw, hpy, hb⟩)
        · exact Or.inl hp
        · exact Or.inr ⟨hpy, by omega, hw, hi, hb⟩
        · right
          have hdiv : px / 8 = n := by omega
          have hmod : px - 8 * n = px % 8 := by omega
          rw [hmod] at hb
          exact ⟨hpy, by omega, hw, by omega, by rw [hdiv]; exact hb⟩
      · rintro (hp | ⟨hpy, hlt, hw, hi, hb⟩)
        · exact Or.inl (Or.inl hp)
        · by_cases hcase : px < 8 * n
          · exact Or.inl (Or.inr ⟨hpy, hcase, hw, hi, hb⟩)
          · right
            have hdiv : px / 8 = n := by omega
            have hmod : px - 8 * n = px % 8 := by omega
            rw [hdiv] at hb hi
            refine ⟨by omega, by omega, hw, hpy, ?_⟩
            rw [hmod]
            exact hb
    · rw [paintGroup_painted_neg _ _ _ _ hrem]
      rw [ih]
      have hfull : img.length ≤ st.byte_idx + n := by omega
      constructor
      · rintro (hp | ⟨hpy, hlt, hw, hi, hb⟩)
        · exact Or.inl hp
        · exact Or.inr ⟨hpy, by omega, hw, hi, hb⟩
      · rintro (hp | ⟨hpy, hlt, hw, hi, hb⟩)
        · exact Or.inl hp
        · refine Or.inr ⟨hpy, ?_, hw, hi, hb⟩
          by_cases hcase : px < 8 * n
          · exact hcase
          · exfalso
            have : px / 8 = n := by omega
            omega

/-- A row step of display_image is the group fold over the 37 column
groups of the panel. -/
theorem paintRow_eq (img : List Nat) (st : PaintState) (y : Nat) :
    paintRow img st y = ((List.range 37).map (fun g => 8 * g)).foldl (paintGroup img y) st := rfl

/-- Byte index consumed after the first m rows of display_image. -/
theorem rowsFold_byte_idx (img : List Nat) (m : Nat) :
    ((List.range m).foldl (paintRow img) ⟨fun _ _ => false, 0⟩).byte_idx
      = min (37 * m) img.length := by
  induction m with
  | zero =>
    show (0 : Nat) = min (37 * 0) img.length
    omega
  | succ m ih =>
    rw [List.range_succ, List.foldl_append]
    simp only [List.foldl_cons, List.foldl_nil]
    rw [paintRow_eq]
    rw [rowFold_byte_idx img m 37 _ (by rw [ih]; exact Nat.min_le_right _ _)]
    rw [ih]
    omega

/-- Pixels painted by the first m rows of display_image: exactly the pixels
on the panel whose row-major byte exists among the received bytes and whose
bit in that byte is clear. -/
theorem rowsFold_painted (img : List Nat) (m px py : Nat) :
    ((List.range m).foldl (paintRow img) ⟨fun _ _ => false, 0⟩).painted px py = true ↔
      (py < m ∧ px < WIDTH ∧ py * 37 + px / 8 < img.length ∧
       img.getD (py * 37 + px / 8) 0 &&& (1 <<< (7 - px % 8)) = 0) := by
  have hW : WIDTH = 296 := rfl
  induction m with
  | zero =>
    simp only [List.range_zero, List.foldl_nil]
    constructor
    · intro hfalse
      exact absurd hfalse (by decide)
    · rintro ⟨hpy, _⟩
      omega
  | succ m ih =>
    rw [List.range_succ, List.foldl_append]
    simp only [List.foldl_cons, List.foldl_nil]
    rw [paintRow_eq]
    have hbyte := rowsFold_byte_idx img m
    rw [rowFold_painted img m 37 _ px py (by omega)]
    constructor
    · rintro (hp | ⟨hpy, h8, hw, hi, hb⟩)
      · obtain ⟨hpy, hw, hi, hb⟩ := ih.mp hp
        exact ⟨by omega, hw, hi, hb⟩
      · subst hpy
        have h37 : ((List.range py).foldl (paintRow img) ⟨fun _ _ => false, 0⟩).byte_idx
            = 37 * py := by omega
        rw [h37] at hb hi
        rw [Nat.mul_comm 37 py] at hb hi
        exact ⟨by omega, hw, hi, hb⟩
    · rintro ⟨hpy, hw, hi, hb⟩
      by_cases hcase : py < m
      · exact Or.inl (ih.mpr ⟨hcase, hw, hi, hb⟩)
      · right
        have hpym : py = m := by omega
        subst hpym
        have h37 : ((List.range py).foldl (paintRow img) ⟨fun _ _ => false, 0⟩).byte_idx
            = 37 * py := by omega
        rw [h37, Nat.mul_comm 37 py]
        exact ⟨rfl, by omega, hw, hi, hb⟩

/-- The final paint of display_image: a pixel ends black exactly when it is
on the panel, its row-major byte index is within the received bytes, and the
corresponding bit of that byte is clear (0 meaning painted). -/
theorem display_paint_painted (img : List Nat) (px py : Nat) :
    (display_paint img).painted px py = true ↔
      (py < HEIGHT ∧ px < WIDTH ∧ py * 37 + px / 8 < img.length ∧
       img.getD (py * 37 + px / 8) 0 &&& (1 <<< (7 - px % 8)) = 0) := by
  rw [show display_paint img = (List.range 128).foldl (paintRow img) ⟨fun _ _ => false, 0⟩ from rfl,
    rowsFold_painted]
  exact Iff.rfl

/-- A byte ANDed with a single shifted bit vanishes exactly when that bit of
the byte is clear. -/
theorem and_one_shift_eq_zero (a n : Nat) :
    a &&& (1 <<< n) = 0 ↔ a.testBit n = false := by
  rw [Nat.one_shiftLeft, Nat.and_two_pow]
  cases hb : a.testBit n
  · simp
  · simp [(Nat.two_pow_pos n).ne']

/-- C1: unpacking the packed bytes of a 296 x 128 canvas with the receiver
paint routine reproduces the canvas exactly: a pixel is painted black if and
only if it lies on the panel and the canvas pixel value is 0 (black), under
the convention that a clear bit means painted. -/
theorem c1_pack_paint_roundtrip (pixels : Nat → Bool) (px py : Nat) :
    (display_paint (image_to_badge_bytes pixels WIDTH HEIGHT)).painted px py = true ↔
      (py < HEIGHT ∧ px < WIDTH ∧ pixels (py * WIDTH + px) = false) := by
  have hW : WIDTH = 296 := rfl
  have hH : HEIGHT = 128 := rfl
  have hlen : (image_to_badge_bytes pixels WIDTH HEIGHT).length = 4736 := by
    rw [length_image_to_badge_bytes]
    rfl
  have hgetD : ∀ hpy : py < HEIGHT, ∀ hpx : px < WIDTH,
      (image_to_badge_bytes pixels WIDTH HEIGHT).getD (py * 37 + px / 8) 0
        = packByte pixels WIDTH py (8 * (px / 8)) := by
    intro hpy hpx
    have hg : px / 8 < bytes_per_row WIDTH := by
      rw [show bytes_per_row WIDTH = 37 from rfl]
      omega
    have hget := getElem?_image_to_badge_bytes pixels WIDTH HEIGHT py (px / 8) hpy hg
    rw [List.getD_eq_getElem?_getD,
      show py * 37 + px / 8 = py * bytes_per_row WIDTH + px / 8 from rfl, hget]
    rfl
  rw [display_paint_painted]
  constructor
  · rintro ⟨hpy, hpx, hidx, hb⟩
    refine ⟨hpy, hpx, ?_⟩
    rw [hgetD hpy hpx, and_one_shift_eq_zero,
      testBit_packByte pixels WIDTH py (8 * (px / 8)) (px % 8) (by omega),
      show 8 * (px / 8) + px % 8 = px from by omega] at hb
    simpa [hpx] using hb
  · rintro ⟨hpy, hpx, hpix⟩
    refine ⟨hpy, hpx, by omega, ?_⟩
    rw [hgetD hpy hpx, and_one_shift_eq_zero,
      testBit_packByte pixels WIDTH py (8 * (px / 8)) (px % 8) (by omega),
      show 8 * (px / 8) + px % 8 = px from by omega]
    simp [hpix]

/-- C9: the receiver paint routine is total on byte sequences of any length;
bytes beyond the expected height times bytes-per-row are ignored (painting
from the truncated sequence gives the same pixels), and a pixel is painted
only when its byte index lies within the received bytes, so a short sequence
paints only the rows its bytes cover. -/
theorem c9_paint_any_length (img : List Nat) (px py : Nat) :
    (display_paint img).painted px py
      = (display_paint (img.take (HEIGHT * bytes_per_row WIDTH))).painted px py ∧
    ((display_paint img).painted px py = true →
      py * bytes_per_row WIDTH + px / 8 < img.length ∧ px < WIDTH ∧ py < HEIGHT) := by
  have hW : WIDTH = 296 := rfl
  have hH : HEIGHT = 128 := rfl
  have hN : HEIGHT * bytes_per_row WIDTH = 4736 := rfl
  constructor
  · rw [Bool.eq_iff_iff, display_paint_painted, display_paint_painted]
    constructor
    · rintro ⟨hpy, hpx, hidx, hb⟩
      refine ⟨hpy, hpx, ?_, ?_⟩
      · rw [List.length_take, hN]
        omega
      · rw [List.getD_eq_getElem?_getD,
          List.getElem?_take_of_lt (by rw [hN]; omega),
          ← List.getD_eq_getElem?_getD]
        exact hb
    · rintro ⟨hpy, hpx, hidx, hb⟩
      rw [List.length_take, hN] at hidx
      refine ⟨hpy, hpx, by omega, ?_⟩
      rw [List.getD_eq_getElem?_getD,
        ← List.getElem?_take_of_lt
          (show py * 37 + px / 8 < HEIGHT * bytes_per_row WIDTH by rw [hN]; omega),
        ← List.getD_eq_getElem?_getD]
      exact hb
  · intro hp
    obtain ⟨hpy, hpx, hidx, _⟩ := (display_paint_painted img px py).mp hp
    refine ⟨?_, hpx, hpy⟩
    rw [show bytes_per_row WIDTH = 37 from rfl]
    exact hidx

/-- Witness instantiating c9_paint_any_length on the single byte 0, which
paints the first 8 pixels of the top row. -/
theorem c9_paint_any_length_witness :
    ((display_paint [0]).painted 0 0
      = (display_paint ([0].take (HEIGHT * bytes_per_row WIDTH))).painted 0 0 ∧
    ((display_paint [0]).painted 0 0 = true →
      0 * bytes_per_row WIDTH + 0 / 8 < [0].length ∧ 0 < WIDTH ∧ 0 < HEIGHT)) :=
  c9_paint_any_length [0] 0 0

/-- C2: the packer emits h * ceil(w / 8) bytes in row-major order; within
the byte of row y and group g, bit 7 - j (bit 7 being the most significant)
equals the canvas pixel of column 8 g + j when that column is inside the
canvas, and is 0 for the padding columns beyond the canvas width. -/
theorem c2_packer_layout (pixels : Nat → Bool) (w h y g j : Nat)
    (hy : y < h) (hg : g < bytes_per_row w) (hj : j < 8) :
    (image_to_badge_bytes pixels w h).length = h * bytes_per_row w ∧
    Nat.testBit ((image_to_badge_bytes pixels w h).getD (y * bytes_per_row w + g) 0) (7 - j)
      = (decide (8 * g + j < w) && pixels (y * w + (8 * g + j))) := by
  refine ⟨length_image_to_badge_bytes pixels w h, ?_⟩
  rw [List.getD_eq_getElem?_getD, getElem?_image_to_badge_bytes pixels w h y g hy hg,
    Option.getD_some, testBit_packByte pixels w y (8 * g) j hj]

/-- Witness instantiating c2_packer_layout on a 5 x 2 canvas of alternating
pixels, at row 1, group 0, bit position 2. -/
theorem c2_packer_layout_witness :
    (1 < 2 ∧ 0 < bytes_per_row 5 ∧ 2 < 8) ∧
    ((image_to_badge_bytes (fun i => i % 2 == 0) 5 2).length = 2 * bytes_per_row 5 ∧
    Nat.testBit ((image_to_badge_bytes (fun i => i % 2 == 0) 5 2).getD (1 * bytes_per_row 5 + 0) 0) (7 - 2)
      = (decide (8 * 0 + 2 < 5) && (fun i => i % 2 == 0) (1 * 5 + (8 * 0 + 2)))) :=
  ⟨⟨by decide, by decide, by decide⟩,
    c2_packer_layout (fun i => i % 2 == 0) 5 2 1 0 2 (by decide) (by decide) (by decide)⟩

/-- The base64 alphabet of RFC 4648, as used by base64.b64encode. -/
def b64Alphabet : List Char :=
  "ABCDEFGHIJKLMNOPQRSTUVWXYZabcdefghijklmnopqrstuvwxyz0123456789+/".toList

/-- Character encoding one 6-bit group. -/
def b64char (i : Nat) : Char := b64Alphabet.getD i '?'

/-- Index of a character in the base64 alphabet. -/
def sextet (c : Char) : Nat := b64Alphabet.findIdx (fun a => a == c)

/-- Modelled from the spec: base64.b64encode from the Python standard
library, which is not part of the repository.  Groups of 3 bytes become 4
alphabet characters; a trailing group of 1 or 2 bytes is padded with the
character =, per RFC 4648. -/
def b64encodeBytes : List Nat → List Char
  | [] => []
  | [b0] => [b64char (b0 / 4), b64char (b0 % 4 * 16), '=', '=']
  | [b0, b1] => [b64char (b0 / 4), b64char (b0 % 4 * 16 + b1 / 16), b64char (b1 % 16 * 4), '=']
  | b0 :: b1 :: b2 :: rest =>
      b64char (b0 / 4) :: b64char (b0 % 4 * 16 + b1 / 16) ::
      b64char (b1 % 16 * 4 + b2 / 64) :: b64char (b2 % 64) :: b64encodeBytes rest

/-- Modelled from the spec: binascii.a2b_base64 from the Python standard
library, which is not part of the repository.  Groups of 4 characters are
decoded to 3 bytes; padding with = at the end yields 1 or 2 bytes; input
whose length is not a multiple of 4 raises, modelled as none. -/
def b64decodeChars : List Char → Option (List Nat)
  | [] => some []
  | c0 :: c1 :: c2 :: c3 :: rest =>
      if c2 = '=' ∧ c3 = '=' ∧ rest = [] then
        some [sextet c0 * 4 + sextet c1 / 16]
      else if c3 = '=' ∧ rest = [] then
        some [sextet c0 * 4 + sextet c1 / 16, sextet c1 % 16 * 16 + sextet c2 / 4]
      else
        match b64decodeChars rest with
        | some tail =>
            some ((sextet c0 * 4 + sextet c1 / 16) ::
                  (sextet c1 % 16 * 16 + sextet c2 / 4) ::
                  (sextet c2 % 4 * 64 + sextet c3) :: tail)
        | none => none
  | _ => none

/-- The alphabet lookup inverts the character encoding on 6-bit values. -/
theorem sextet_b64char : ∀ i : Nat, i < 64 → sextet (b64char i) = i := by decide

/-- No 6-bit value encodes to the padding character. -/
theorem b64char_ne_pad : ∀ i : Nat, i < 64 → b64char i ≠ '=' := by decide

/-- Decoding inverts encoding on every byte sequence. -/
theorem b64_roundtrip (bs : List Nat) (h : ∀ b ∈ bs, b < 256) :
    b64decodeChars (b64encodeBytes bs) = some bs := by
  induction bs using b64encodeBytes.induct with
  | case1 => rfl
  | case2 b0 =>
    have hb0 : b0 < 256 := h b0 (by simp)
    show b64decodeChars [b64char (b0 / 4), b64char (b0 % 4 * 16), '=', '='] = some [b0]
    unfold b64decodeChars
    rw [if_pos ⟨rfl, rfl, rfl⟩, sextet_b64char (b0 / 4) (by omega),
      sextet_b64char (b0 % 4 * 16) (by omega),
      show b0 / 4 * 4 + b0 % 4 * 16 / 16 = b0 from by omega]
  | case3 b0 b1 =>
    have hb0 : b0 < 256 := h b0 (by simp)
    have hb1 : b1 < 256 := h b1 (by simp)
    show b64decodeChars
        [b64char (b0 / 4), b64char (b0 % 4 * 16 + b1 / 16), b64char (b1 % 16 * 4), '=']
      = some [b0, b1]
    unfold b64decodeChars
    rw [if_neg (fun hand => b64char_ne_pad (b1 % 16 * 4) (by omega) hand.1),
      if_pos ⟨rfl, rfl⟩, sextet_b64char (b0 / 4) (by omega),
      sextet_b64char (b0 % 4 * 16 + b1 / 16) (by omega),
      sextet_b64char (b1 % 16 * 4) (by omega),
      show b0 / 4 * 4 + (b0 % 4 * 16 + b1 / 16) / 16 = b0 from by omega,
      show (b0 % 4 * 16 + b1 / 16) % 16 * 16 + b1 % 16 * 4 / 4 = b1 from by omega]
  | case4 b0 b1 b2 rest ih =>
    have hb0 : b0 < 256 := h b0 (by simp)
    have hb1 : b1 < 256 := h b1 (by simp)
    have hb2 : b2 < 256 := h b2 (by simp)
    have hrest : ∀ b ∈ rest, b < 256 := fun b hb => h b (by simp [hb])
    show b64decodeChars
        (b64char (b0 / 4) :: b64char (b0 % 4 * 16 + b1 / 16) ::
         b64char (b1 % 16 * 4 + b2 / 64) :: b64char (b2 % 64) :: b64encodeBytes rest)
      = some (b0 :: b1 :: b2 :: rest)
    unfold b64decodeChars
    rw [if_neg (fun hand => b64char_ne_pad (b1 % 16 * 4 + b2 / 64) (by omega) hand.1),
      if_neg (fun hand => b64char_ne_pad (b2 % 64) (by omega) hand.1),
      ih hrest, sextet_b64char (b0 / 4) (by omega),
      sextet_b64char (b0 % 4 * 16 + b1 / 16) (by omega),
      sextet_b64char (b1 % 16 * 4 + b2 / 64) (by omega),
      sextet_b64char (b2 % 64) (by omega),
      show b0 / 4 * 4 + (b0 % 4 * 16 + b1 / 16) / 16 = b0 from by omega,
      show (b0 % 4 * 16 + b1 / 16) % 16 * 16 + (b1 % 16 * 4 + b2 / 64) / 4 = b1 from by omega,
      show (b1 % 16 * 4 + b2 / 64) % 4 * 64 + b2 % 64 = b2 from by omega]

/-- Embedding of send_image_to_badge (badge_co2.py lines 325-332): the
characters written to the serial link are the tag IMG:, the base64 payload,
and a single newline, then the link is flushed. -/
def send_image_to_badge (img_bytes : List Nat) : List Char :=
  "IMG:".toList ++ b64encodeBytes img_bytes ++ ['\n']

/-- C3: for every byte sequence the transmitter emits exactly the frame
IMG: followed by the base64 payload and one newline; stripping the 4-character
tag from the line recovers the payload, and decoding the payload returns
exactly the original bytes. -/
theorem c3_frame_roundtrip (bs : List Nat) (h : ∀ b ∈ bs, b < 256) :
    send_image_to_badge bs = "IMG:".toList ++ b64encodeBytes bs ++ ['\n'] ∧
    ("IMG:".toList ++ b64encodeBytes bs).drop 4 = b64encodeBytes bs ∧
    b64decodeChars (b64encodeBytes bs) = some bs :=
  ⟨rfl, List.drop_left' rfl, b64_roundtrip bs h⟩

/-- Witness instantiating c3_frame_roundtrip on the bytes 0, 255, 77, 1. -/
theorem c3_frame_roundtrip_witness :
    (∀ b ∈ [0, 255, 77, 1], b < 256) ∧
    (send_image_to_badge [0, 255, 77, 1]
        = "IMG:".toList ++ b64encodeBytes [0, 255, 77, 1] ++ ['\n'] ∧
    ("IMG:".toList ++ b64encodeBytes [0, 255, 77, 1]).drop 4 = b64encodeBytes [0, 255, 77, 1] ∧
    b64decodeChars (b64encodeBytes [0, 255, 77, 1]) = some [0, 255, 77, 1]) :=
  ⟨by decide, c3_frame_roundtrip [0, 255, 77, 1] (by decide)⟩

/-- Contents shown on the receiver panel: the startup waiting screen, a
painted image, or the legacy large-text screen. -/
inductive Panel
  | waiting
  | image (painted : Nat → Nat → Bool)
  | legacy (value : List Char)

/-- State of the receiver read loop: the line buffer, the refresh counter
update_count, and the panel contents. -/
structure ReceiverState where
  buffer : List Char
  update_count : Nat
  panel : Panel

/-- The refresh bookkeeping at the end of display_image (badge_main.py lines
56-64): the counter is incremented; on reaching FULL_REFRESH_INTERVAL a full
(slow) refresh runs and the counter resets to 0 (flag true), otherwise the
normal fast update runs (flag false). -/
def refresh_step (update_count : Nat) : Nat × Bool :=
  if update_count + 1 ≥ FULL_REFRESH_INTERVAL then (0, true) else (update_count + 1, false)

/-- Python str.strip on a list of characters. -/
def pyStrip (l : List Char) : List Char :=
  ((l.dropWhile Char.isWhitespace).reverse.dropWhile Char.isWhitespace).reverse

/-- The line dispatch of the receiver read loop (badge_main.py lines 78-102):
an IMG line is decoded and, when decoding succeeds, painted via
display_image, which also advances the refresh counter; when decoding raises
the frame is dropped and the state is unchanged.  A CO2 line shows the
legacy text screen.  Any other line is ignored. -/
def handle_line (st : ReceiverState) (line : List Char) : ReceiverState :=
  if "IMG:".toList.isPrefixOf line then
    match b64decodeChars (line.drop 4) with
    | some img_bytes =>
        { st with
          panel := Panel.image (display_paint img_bytes).painted,
          update_count := (refresh_step st.update_count).1 }
    | none => st
  else if "CO2:".toList.isPrefixOf line then
    { st with panel := Panel.legacy ((line.drop 4).takeWhile (fun c => c ≠ ':')) }
  else st

/-- Arrival of a newline in the read loop (badge_main.py lines 78-80): the
buffer is cleared, then the stripped line is dispatched. -/
def on_newline (st : ReceiverState) : ReceiverState :=
  handle_line { st with buffer := [] } (pyStrip st.buffer)

/-- C6: a received IMG line whose payload fails to decode leaves the
receiver state unchanged apart from the cleared line buffer: the refresh
counter and the previously painted panel contents are untouched, the frame
is simply dropped, and since the dispatch is a total function no exception
escapes the read loop. -/
theorem c6_corrupt_frame_dropped (st : ReceiverState) (payload : List Char)
    (hbuf : pyStrip st.buffer = "IMG:".toList ++ payload)
    (hdec : b64decodeChars payload = none) :
    on_newline st = { buffer := [], update_count := st.update_count, panel := st.panel } := by
  unfold on_newline handle_line
  rw [hbuf]
  have hpre : "IMG:".toList.isPrefixOf ("IMG:".toList ++ payload) = true := by
    have h4 : ("IMG:".toList : List Char) = ['I', 'M', 'G', ':'] := rfl
    rw [h4]
    simp [List.isPrefixOf]
  rw [if_pos hpre, show ("IMG:".toList ++ payload).drop 4 = payload from List.drop_left' rfl,
    hdec]

/-- Witness instantiating c6_corrupt_frame_dropped on the buffered line
IMG:A, whose 1-character payload has invalid base64 padding. -/
theorem c6_corrupt_frame_dropped_witness :
    pyStrip ("IMG:A".toList) = "IMG:".toList ++ ['A'] ∧
    b64decodeChars ['A'] = none ∧
    on_newline ⟨"IMG:A".toList, 5, Panel.waiting⟩
      = { buffer := [], update_count := 5, panel := Panel.waiting } :=
  ⟨rfl, rfl, c6_corrupt_frame_dropped ⟨"IMG:A".toList, 5, Panel.waiting⟩ ['A'] rfl rfl⟩

/-- The refresh counter after n successful paints, starting from 0. -/
def countAfter : Nat → Nat
  | 0 => 0
  | n + 1 => (refresh_step (countAfter n)).1

/-- C7: with the full-refresh interval fixed at 60, the counter after n
paints is n mod 60, hence always in [0, 60); the 60th paint runs the full
(slow) refresh and resets the counter to 0, and the 61st paint uses the fast
mode again. -/
theorem c7_refresh_counter :
    (∀ n, countAfter n = n % 60 ∧ countAfter n < 60) ∧
    (refresh_step (countAfter 59)).2 = true ∧
    countAfter 60 = 0 ∧
    (refresh_step (countAfter 60)).2 = false ∧
    FULL_REFRESH_INTERVAL = 60 := by
  have hmod : ∀ n, countAfter n = n % 60 := by
    intro n
    induction n with
    | zero => rfl
    | succ n ih =>
      show (refresh_step (countAfter n)).1 = (n + 1) % 60
      rw [ih]
      unfold refresh_step FULL_REFRESH_INTERVAL
      split_ifs with hc
      · exact (by omega : (0 : Nat) = (n + 1) % 60)
      · exact (by omega : n % 60 + 1 = (n + 1) % 60)
  refine ⟨fun n => ⟨hmod n, by have := hmod n; omega⟩, ?_, ?_, ?_, rfl⟩
  · rw [hmod 59]
    decide
  · rw [hmod 60]
  · rw [hmod 60]
    decide

/-- C6 counterexample: the payload AAAA, a 4-character truncation of the
valid 8-character payload AAAAAAAA, still decodes (to three zero bytes), so
processing the truncated IMG line repaints the panel and advances the
refresh counter: the receiver state is altered, not left as before. -/
theorem c6_truncation_changes_state :
    "AAAA".toList = ("AAAAAAAA".toList).take 4 ∧
    b64decodeChars ("AAAAAAAA".toList) = some [0, 0, 0, 0, 0, 0] ∧
    b64decodeChars ("AAAA".toList) = some [0, 0, 0] ∧
    (on_newline ⟨"IMG:AAAA".toList, 0, Panel.waiting⟩).update_count = 1 ∧
    (⟨"IMG:AAAA".toList, 0, Panel.waiting⟩ : ReceiverState).update_count = 0 ∧
    (on_newline ⟨"IMG:AAAA".toList, 0, Panel.waiting⟩).panel ≠ Panel.waiting := by
  refine ⟨rfl, by decide, by decide, ?_, rfl, ?_⟩
  · rfl
  · intro hcontra
    exact Panel.noConfusion hcontra
